import Mathlib

/-!
Verification of the autocatalytic-set generation and analysis engine of the
repository (the files class_AutocatalyticSet.py and class_AssemblyAnalysis.py).

Modelling conventions, used throughout:

* a Python string is a `List Char` (`PyStr`); `''.join(sorted(s))` is
  `sortChars`, insertion sort by code point;
* the global `random` module is an explicit stream `RNG`: `random.random()`
  reads the next rational from `floats` (library contract: values in `[0,1)`;
  out-of-range stream entries are clamped to `0`, so every valid source is
  still represented and quantifying over all streams quantifies over all
  behaviours of the generator), while `random.randint` and the element
  selection inside `random.choice` / `random.choices` read from `nats`;
* `random.choices(population, weights)[0]` draws one uniform value, scales it
  by the total weight and walks the cumulative weights (`pickByWeight`),
  exactly the behaviour of the library call;
* a Python `set` is a first-occurrence-deduplicated list (`dedupFirst`); set
  iteration order is unspecified in the source and none of the properties
  proved below depend on the order chosen here;
* a pandas DataFrame is the list of its rows.  A DataFrame built from an
  empty record list has no columns, so the column selection
  `reactions_df['Product']` inside `get_subnetwork` raises `KeyError`; this
  is modelled by `getSubnetwork` returning `Except.error`;
* fallible code returns `Except String`;
* the color bookkeeping of the source (`assign_colors`, the color side of
  `add_reaction`) holds no data consumed by the analysis; its random draws
  only shift positions in the stream, and since the claims quantify over all
  streams (or exhibit one), omitting those draws changes no claim;
* the traversals of `extract_subnetworks`, whose termination in the source
  depends on the shape of the reaction table, take an explicit fuel argument;
  the wrappers pass bounds that strictly exceed the number of steps any
  reaction table produced by `split_product` can need, so the embedding
  agrees with the source on all reachable inputs.
-/

/-- A Python string: the type of products, constituents and catalysts.
The empty list models the empty-string catalyst meaning "none". -/
abbrev PyStr := List Char

/-- Insert a character into a (sorted) list of characters; helper of
`sortChars`. -/
def insertChar (c : Char) : List Char → List Char
  | [] => [c]
  | x :: xs => if c ≤ x then c :: x :: xs else x :: insertChar c xs

/-- Model of Python's `''.join(sorted(s))` used by `split_product`:
sorting of the characters of a string by code point. -/
def sortChars : List Char → List Char
  | [] => []
  | x :: xs => insertChar x (sortChars xs)

theorem insertChar_perm (c : Char) (l : List Char) :
    (insertChar c l).Perm (c :: l) := by
  induction l with
  | nil => simp [insertChar]
  | cons x xs ih =>
    simp only [insertChar]
    split
    · exact List.Perm.refl _
    · exact (ih.cons x).trans (List.Perm.swap c x xs)

theorem sortChars_perm (l : List Char) : (sortChars l).Perm l := by
  induction l with
  | nil => simp [sortChars]
  | cons x xs ih => exact (insertChar_perm x (sortChars xs)).trans (ih.cons x)

theorem sortChars_length (l : List Char) : (sortChars l).length = l.length :=
  (sortChars_perm l).length_eq

theorem insertChar_sorted (c : Char) :
    ∀ l : List Char, l.Sorted (· ≤ ·) → (insertChar c l).Sorted (· ≤ ·) := by
  intro l
  induction l with
  | nil => intro _; simp [insertChar]
  | cons x xs ih =>
    intro h
    rw [List.sorted_cons] at h
    simp only [insertChar]
    split
    · next hcx =>
      rw [List.sorted_cons]
      refine ⟨?_, ?_⟩
      · intro b hb
        rcases List.mem_cons.mp hb with rfl | hb
        · exact hcx
        · exact le_trans hcx (h.1 b hb)
      · rw [List.sorted_cons]
        exact h
    · next hcx =>
      rw [List.sorted_cons]
      refine ⟨?_, ih h.2⟩
      intro b hb
      rcases List.mem_cons.mp ((insertChar_perm c xs).mem_iff.mp hb) with rfl | hbxs
      · exact le_of_not_le hcx
      · exact h.1 b hbxs

theorem sortChars_sorted (l : List Char) : (sortChars l).Sorted (· ≤ ·) := by
  induction l with
  | nil => simp [sortChars]
  | cons x xs ih => exact insertChar_sorted x _ ih

theorem sortChars_eq_of_perm {l₁ l₂ : List Char} (h : l₁.Perm l₂) :
    sortChars l₁ = sortChars l₂ :=
  List.eq_of_perm_of_sorted
    ((sortChars_perm l₁).trans (h.trans (sortChars_perm l₂).symm))
    (sortChars_sorted l₁) (sortChars_sorted l₂)

theorem sortChars_idem (l : List Char) : sortChars (sortChars l) = sortChars l :=
  sortChars_eq_of_perm (sortChars_perm l)

theorem sortChars_append_sortChars (a b : List Char) :
    sortChars (sortChars a ++ sortChars b) = sortChars (a ++ b) :=
  sortChars_eq_of_perm ((sortChars_perm a).append (sortChars_perm b))

/-- Explicit random source: `floats` feeds `random.random()` and `nats` feeds
`random.randint` and the element selection of the choice helpers. -/
structure RNG where
  floats : List ℚ
  nats : List Nat
deriving DecidableEq

/-- Values outside `[0,1)` cannot be returned by `random.random()`; arbitrary
streams are kept inside the library contract by clamping. -/
def clamp01 (q : ℚ) : ℚ := if 0 ≤ q ∧ q < 1 then q else 0

/-- One call of `random.random()`. -/
def nextFloat (g : RNG) : ℚ × RNG :=
  (clamp01 (g.floats.headD 0), { g with floats := g.floats.tail })

/-- One raw draw from the integer stream. -/
def nextNat (g : RNG) : Nat × RNG :=
  (g.nats.headD 0, { g with nats := g.nats.tail })

def emptyRangeMsg : String := "ValueError: empty range for randrange"

/-- Model of `random.randint(lo, hi)`: a uniform value with inclusive bounds,
raising `ValueError` when the range is empty (as `randint(1, -1)` does for an
empty product in `split_product`). -/
def randint (lo hi : Nat) (g : RNG) : Except String (Nat × RNG) :=
  if hi < lo then .error emptyRangeMsg
  else
    let (n, g1) := nextNat g
    .ok (lo + n % (hi - lo + 1), g1)

/-- Model of `random.choice(l)` for nonempty `l`: an element selected by the
random source. -/
def randChoice (l : List PyStr) (g : RNG) : PyStr × RNG :=
  let (n, g1) := nextNat g
  (l.getD (n % l.length) [], g1)

/-- One row of the reaction table, exactly the record appended by
`add_reaction` (columns Reaction, Layer, Constituent 1, Constituent 2,
Catalyst, Product). -/
structure Reaction where
  rid : Nat
  layer : Nat
  constituent1 : PyStr
  constituent2 : PyStr
  catalyst : PyStr
  product : PyStr
deriving DecidableEq

/-- Model of `add_reaction` (the color-map bookkeeping of the source is
visualization-only and carries no data used anywhere else, so it is omitted):
the new row's id is the current table length. -/
def addReaction (layer : Nat) (reactant1 reactant2 product : PyStr)
    (reactions : List Reaction) : List Reaction :=
  reactions ++ [{ rid := reactions.length, layer := layer,
                  constituent1 := reactant1, constituent2 := reactant2,
                  catalyst := [], product := product }]

/-- Model of `split_product`, structurally recursive on a fuel bound for the
recursion depth.  `splitProduct` passes `product.length + 1`, which always
suffices because each recursive call strictly shortens the product, so the
fuel-exhaustion branch is unreachable from the wrapper. -/
def splitProductF : Nat → PyStr → Nat → List Reaction × RNG →
    Except String (List Reaction × RNG)
  | 0, _, _, st => .ok st
  | fuel + 1, product, layer, st =>
    if product.length = 1 then .ok st
    else
      match randint 1 (product.length - 1) st.2 with
      | .error e => .error e
      | .ok (splitIndex, g) =>
        let reactant1 := sortChars (product.take splitIndex)
        let reactant2 := sortChars (product.drop splitIndex)
        match splitProductF fuel reactant1 (layer + 1) (st.1, g) with
        | .error e => .error e
        | .ok st1 =>
          match splitProductF fuel reactant2 (layer + 1) st1 with
          | .error e => .error e
          | .ok st2 =>
            .ok (addReaction layer reactant1 reactant2 product st2.1, st2.2)

/-- `split_product(product, layer)` acting on a reaction table and a random
source. -/
def splitProduct (product : PyStr) (layer : Nat) (st : List Reaction × RNG) :
    Except String (List Reaction × RNG) :=
  splitProductF (product.length + 1) product layer st

example : splitProduct ['A'] 0 ([], ⟨[], []⟩) = .ok ([], ⟨[], []⟩) := rfl

example :
    splitProduct ['B', 'A'] 0 ([], ⟨[], [0]⟩) =
      .ok ([⟨0, 0, ['B'], ['A'], [], ['B', 'A']⟩], ⟨[], []⟩) := rfl

/-- First-occurrence deduplication with an accumulator of already-seen
elements; helper of `dedupFirst`. -/
def dedupFirstAux {α : Type} [DecidableEq α] (seen : List α) : List α → List α
  | [] => []
  | a :: as =>
    if a ∈ seen then dedupFirstAux seen as
    else a :: dedupFirstAux (a :: seen) as

/-- The contents of a Python `set` built from a list, in first-occurrence
order (iteration order of the source's sets is unspecified and irrelevant to
every property proved in this development). -/
def dedupFirst {α : Type} [DecidableEq α] (l : List α) : List α :=
  dedupFirstAux [] l

theorem mem_dedupFirstAux {α : Type} [DecidableEq α] (x : α) :
    ∀ (l seen : List α), x ∈ dedupFirstAux seen l ↔ x ∈ l ∧ x ∉ seen := by
  intro l
  induction l with
  | nil => intro seen; simp [dedupFirstAux]
  | cons a as ih =>
    intro seen
    simp only [dedupFirstAux]
    split
    · next ha =>
      rw [ih seen]
      constructor
      · exact fun h => ⟨List.mem_cons_of_mem a h.1, h.2⟩
      · rintro ⟨h1, h2⟩
        rcases List.mem_cons.mp h1 with rfl | h1
        · exact absurd ha h2
        · exact ⟨h1, h2⟩
    · next ha =>
      rw [List.mem_cons, ih (a :: seen)]
      constructor
      · rintro (rfl | ⟨h1, h2⟩)
        · exact ⟨List.mem_cons_self _ _, fun hx => ha hx⟩
        · exact ⟨List.mem_cons_of_mem a h1, fun hx => h2 (List.mem_cons_of_mem a hx)⟩
      · rintro ⟨h1, h2⟩
        by_cases hxa : x = a
        · exact Or.inl hxa
        · rcases List.mem_cons.mp h1 with rfl | h1
          · exact absurd rfl hxa
          · refine Or.inr ⟨h1, fun hx => ?_⟩
            rcases List.mem_cons.mp hx with rfl | hx
            · exact hxa rfl
            · exact h2 hx

theorem mem_dedupFirst {α : Type} [DecidableEq α] {x : α} {l : List α} :
    x ∈ dedupFirst l ↔ x ∈ l := by
  rw [dedupFirst, mem_dedupFirstAux]
  simp

/-- The comprehension `[e for e in all_possible_catalysts if e not in
[reaction['Constituent 1'], reaction['Constituent 2']] and e not in
used_catalysts]` of strategies 0 and 1 of `assign_catalysts`. -/
def possibleCatalystsNoReuse (pool used : List PyStr) (r : Reaction) :
    List PyStr :=
  pool.filter fun e =>
    decide (¬ (e = r.constituent1 ∨ e = r.constituent2) ∧ e ∉ used)

/-- The same comprehension without the used-catalyst exclusion
(strategy 2 of `assign_catalysts`). -/
def possibleCatalystsReuse (pool : List PyStr) (r : Reaction) : List PyStr :=
  pool.filter fun e => decide (¬ (e = r.constituent1 ∨ e = r.constituent2))

/-- Model of `calculate_weighted_probabilities`: weight `len(e)/max_len`,
normalized by the total weight; the Python dict is modelled as a function,
queried only at members of the pool it was built from. -/
def calculateWeightedProbabilities (elements : List PyStr) : PyStr → ℚ :=
  let maxLength : ℚ := ((elements.map fun e => e.length).foldl max 0 : Nat)
  let probabilities : PyStr → ℚ := fun e => (e.length : ℚ) / maxLength
  let totalWeight : ℚ := (elements.map probabilities).sum
  fun e => probabilities e / totalWeight

/-- Cumulative-weight walk of `random.choices(population, weights)[0]`: the
uniform draw is scaled by the total weight and the first element whose
cumulative weight exceeds it is returned; the last element catches any
remainder, as the library's bisection does. -/
def pickByWeight (w : PyStr → ℚ) : List PyStr → ℚ → PyStr
  | [], _ => []
  | [c], _ => c
  | c :: c2 :: rest, q => if q < w c then c else pickByWeight w (c2 :: rest) (q - w c)

/-- One call of `random.choices(population, weights)[0]`. -/
def weightedChoice (population : List PyStr) (w : PyStr → ℚ) (g : RNG) :
    PyStr × RNG :=
  let (q, g1) := nextFloat g
  (pickByWeight w population (q * (population.map w).sum), g1)

theorem pickByWeight_mem (w : PyStr → ℚ) :
    ∀ (l : List PyStr) (q : ℚ), l ≠ [] → pickByWeight w l q ∈ l := by
  intro l
  induction l with
  | nil => intro q h; exact absurd rfl h
  | cons c rest ih =>
    intro q _
    cases rest with
    | nil => simp [pickByWeight]
    | cons c2 rest2 =>
      simp only [pickByWeight]
      split
      · exact List.mem_cons_self _ _
      · exact List.mem_cons_of_mem c (ih _ (by simp))

theorem getD_mod_mem {α : Type} (l : List α) (n : Nat) (d : α) (h : l ≠ []) :
    l.getD (n % l.length) d ∈ l := by
  have hlen : 0 < l.length := List.length_pos.mpr h
  have hlt : n % l.length < l.length := Nat.mod_lt _ hlen
  rw [List.getD_eq_getElem l d hlt]
  exact List.getElem_mem hlt

/-- Loop body of strategy 0 of `assign_catalysts` (random assignment without
reuse), acting on the processed rows, the used-catalyst set and the random
source. -/
def assignStep0 (pool : List PyStr) (p : ℚ)
    (acc : List Reaction × List PyStr × RNG) (r : Reaction) :
    List Reaction × List PyStr × RNG :=
  let done := acc.1
  let used := acc.2.1
  let g := acc.2.2
  let (q, g1) := nextFloat g
  if q ≤ p then
    let possible := possibleCatalystsNoReuse pool used r
    if possible.isEmpty then (done ++ [{ r with catalyst := [] }], used, g1)
    else
      let (c, g2) := randChoice possible g1
      (done ++ [{ r with catalyst := c }], used ++ [c], g2)
  else (done ++ [{ r with catalyst := [] }], used, g1)

/-- Loop body of strategy 1 of `assign_catalysts` (weighted random assignment
without reuse). -/
def assignStep1 (pool : List PyStr) (w : PyStr → ℚ) (p : ℚ)
    (acc : List Reaction × List PyStr × RNG) (r : Reaction) :
    List Reaction × List PyStr × RNG :=
  let done := acc.1
  let used := acc.2.1
  let g := acc.2.2
  let (q, g1) := nextFloat g
  if q ≤ p then
    let possible := possibleCatalystsNoReuse pool used r
    if possible.isEmpty then (done ++ [{ r with catalyst := [] }], used, g1)
    else
      let (c, g2) := weightedChoice possible w g1
      (done ++ [{ r with catalyst := c }], used ++ [c], g2)
  else (done ++ [{ r with catalyst := [] }], used, g1)

/-- Loop body of strategy 2 of `assign_catalysts` (weighted random assignment
with reuse: no used-set filtering and no marking). -/
def assignStep2 (pool : List PyStr) (w : PyStr → ℚ) (p : ℚ)
    (acc : List Reaction × List PyStr × RNG) (r : Reaction) :
    List Reaction × List PyStr × RNG :=
  let done := acc.1
  let used := acc.2.1
  let g := acc.2.2
  let (q, g1) := nextFloat g
  if q ≤ p then
    let possible := possibleCatalystsReuse pool r
    if possible.isEmpty then (done ++ [{ r with catalyst := [] }], used, g1)
    else
      let (c, g2) := weightedChoice possible w g1
      (done ++ [{ r with catalyst := c }], used, g2)
  else (done ++ [{ r with catalyst := [] }], used, g1)

/-- Model of `assign_catalysts`: the candidate pool is the set of single
characters of the final product united with the set of all products, computed
once up front; the dispatch on `switch_cat` has no else branch in the source,
so any unknown strategy id leaves the table untouched. -/
def assignCatalysts (finalProduct : PyStr) (p : ℚ) (s : Int)
    (reactions : List Reaction) (g : RNG) : List Reaction × RNG :=
  let pool := dedupFirst
    ((finalProduct.map fun c => [c]) ++ reactions.map fun r => r.product)
  if s = 0 then
    let res := reactions.foldl (assignStep0 pool p) ([], [], g)
    (res.1, res.2.2)
  else if s = 1 then
    let w := calculateWeightedProbabilities pool
    let res := reactions.foldl (assignStep1 pool w p) ([], [], g)
    (res.1, res.2.2)
  else if s = 2 then
    let w := calculateWeightedProbabilities pool
    let res := reactions.foldl (assignStep2 pool w p) ([], [], g)
    (res.1, res.2.2)
  else (reactions, g)

/-- Model of `build_reactions` as invoked by the analysis entry points:
split the final product recursively, then assign catalysts; the resulting
table is the DataFrame `reactions_df`. -/
def buildReactions (finalProduct : PyStr) (p : ℚ) (s : Int) (g : RNG) :
    Except String (List Reaction × RNG) :=
  match splitProduct finalProduct 0 ([], g) with
  | .error e => .error e
  | .ok (reactions, g1) => .ok (assignCatalysts finalProduct p s reactions g1)

example :
    buildReactions ['A', 'B'] 0 0 ⟨[0], [0, 0]⟩ =
      .ok ([⟨0, 0, ['A'], ['B'], ['A', 'B'], ['A', 'B']⟩], ⟨[], []⟩) := rfl

example :
    buildReactions ['B', 'A'] 0 3 ⟨[], [0]⟩ =
      .ok ([⟨0, 0, ['B'], ['A'], [], ['B', 'A']⟩], ⟨[], []⟩) := rfl

/-- The set `products | constituents_1 | constituents_2` computed by
`is_autocatalytic_subnetwork`. -/
def dfAllElements (df : List Reaction) : List PyStr :=
  dedupFirst ((df.map fun row => row.product) ++
    (df.map fun row => row.constituent1) ++ (df.map fun row => row.constituent2))

/-- The set of catalyst values of a reaction table with the empty entry
discarded, as computed by `is_autocatalytic_subnetwork` (`dropna` never drops
anything here because every catalyst cell holds a string). -/
def dfCatalysts (df : List Reaction) : List PyStr :=
  dedupFirst ((df.map fun row => row.catalyst).filter fun c => decide (c ≠ []))

/-- Model of `is_autocatalytic_subnetwork(subnetwork_df, check_for_catalysts)`:
false when checking is on and no catalyst is assigned, false when some
catalyst is outside the table's own symbols, true otherwise. -/
def isAutocatalyticSubnetwork (df : List Reaction) (checkForCatalysts : Bool) :
    Bool :=
  if checkForCatalysts && (dfCatalysts df).isEmpty then false
  else if (dfCatalysts df).any fun c => decide (c ∉ dfAllElements df) then false
  else true

def keyErrorMsg : String := "KeyError: Product"

/-- One pass of the body of the while-loop of `get_subnetwork`: for every
frontier symbol append all rows of the full table producing it, and collect
the constituents of the appended rows. -/
def subnetworkStep (df : List Reaction) (acc : List Reaction × List PyStr)
    (reactant : PyStr) : List Reaction × List PyStr :=
  let subReactions := df.filter fun row => decide (row.product = reactant)
  (acc.1 ++ subReactions,
   acc.2 ++ (subReactions.map fun row => row.constituent1) ++
     (subReactions.map fun row => row.constituent2))

/-- The while-loop of `get_subnetwork`.  The fuel bounds its iterations;
`getSubnetwork` passes `df.length + 2`, which suffices because an iteration
that continues strictly extends the set of product symbols of the
accumulator, and there are at most `df.length` distinct products. -/
def getSubnetworkLoop (df : List Reaction) :
    Nat → List Reaction → List PyStr → List Reaction
  | 0, subnetwork, _ => subnetwork
  | fuel + 1, subnetwork, reactants =>
    if reactants.isEmpty then subnetwork
    else
      let step := reactants.foldl (subnetworkStep df) (subnetwork, [])
      let nextReactants := (dedupFirst step.2).filter fun sy =>
        decide (sy ∉ step.1.map fun row => row.product)
      getSubnetworkLoop df fuel step.1 nextReactants

/-- Model of the inner `get_subnetwork(product)` of `extract_subnetworks`:
the backward closure of all rows needed to build `product`, deduplicated in
first-occurrence order (`drop_duplicates`).  A DataFrame built from an empty
record list has no columns, so the column selection raises `KeyError`; that
is the only failure point. -/
def getSubnetwork (df : List Reaction) (product : PyStr) :
    Except String (List Reaction) :=
  if df.isEmpty then .error keyErrorMsg
  else
    let subnetwork := df.filter fun row => decide (row.product = product)
    let reactants := dedupFirst
      ((subnetwork.map fun row => row.constituent1) ++
       (subnetwork.map fun row => row.constituent2))
    .ok (dedupFirst (getSubnetworkLoop df (df.length + 2) subnetwork reactants))

/-- The dict of extracted subnetworks, keyed by product symbol in insertion
order (Python dicts preserve insertion order). -/
abbrev SubDict := List (PyStr × List Reaction)

/-- Python dict assignment `d[k] = v`: overwrite when the key is present,
append otherwise. -/
def insertSub (dict : SubDict) (k : PyStr) (v : List Reaction) : SubDict :=
  if k ∈ dict.map Prod.fst then
    dict.map fun kv => if kv.1 = k then (k, v) else kv
  else dict ++ [(k, v)]

/-- The recursive `process_product` traversal of `extract_subnetworks` (the
non-printing variant used by the analysis), written with an explicit
depth-first worklist holding the pending iterations of the constituent loop,
and a fuel bounding the number of items taken from the worklist.  The
not-yet-in-dict guard of the source is checked when an item is taken, exactly
as the source checks it immediately before each recursive call. -/
def processProducts (df : List Reaction) (finalProduct : PyStr) :
    Nat → List PyStr → SubDict → Except String SubDict
  | 0, _, dict => .ok dict
  | fuel + 1, worklist, dict =>
    match worklist with
    | [] => .ok dict
    | product :: rest =>
      if product ∈ dict.map Prod.fst then
        processProducts df finalProduct fuel rest dict
      else
        match getSubnetwork df product with
        | .error e => .error e
        | .ok sub =>
          if sub.isEmpty then processProducts df finalProduct fuel rest dict
          else
            let dict1 := if product = finalProduct then dict
              else insertSub dict product sub
            let constituents := dedupFirst
              ((sub.map fun row => row.constituent1) ++
               (sub.map fun row => row.constituent2))
            processProducts df finalProduct fuel (constituents ++ rest) dict1

/-- Model of `extract_subnetworks`, seeded at the final product with the
empty dict.  The fuel strictly exceeds the number of worklist items any table
produced by `split_product` can generate. -/
def extractSubnetworks (finalProduct : PyStr) (df : List Reaction) :
    Except String SubDict :=
  processProducts df finalProduct
    (2 * df.length * df.length + 2 * df.length + 2) [finalProduct] []

/-- Model of `AssemblyAnalysis.process_autocatalytic_set`: extract the
subnetworks, then return the triple (subnetwork count, autocatalytic
subnetwork count, maximal layer + 1). -/
def processAutocatalyticSet (finalProduct : PyStr) (df : List Reaction) :
    Except String (Nat × Nat × Nat) :=
  match extractSubnetworks finalProduct df with
  | .error e => .error e
  | .ok dict =>
    let maxDepth :=
      (df.foldl (fun m row => if row.layer > m then row.layer else m) 0) + 1
    let subnetworkCount := dict.length
    let autocatalyticSubnetworkCount :=
      (dict.filter fun kv => isAutocatalyticSubnetwork kv.2 true).length
    .ok (subnetworkCount, autocatalyticSubnetworkCount, maxDepth)

def squareLit : String := "square"

/-- The value of the `switch_aut_prob` configuration field, which the source
compares with `== True` and `== "square"` and otherwise treats as the
no-amplification default. -/
inductive AmpVal where
  | bool : Bool → AmpVal
  | str : String → AmpVal
deriving DecidableEq

/-- Python truthiness of `switch_aut_prob`, used by `find_assembly_index`. -/
def AmpVal.truthy : AmpVal → Bool
  | .bool b => b
  | .str s => decide (s ≠ "")

/-- The per-trial block appended to `assembly_indices` by the tail of the
loop of `find_assembly_list`: `[max_depth] * m` for `switch_aut_prob == True`,
`[max_depth] * m**2` for `== "square"`, else `[max_depth]`, with
`m = 1 + whole_set_autocatalytic + autocatalytic_subnetwork_count`. -/
def contributionOf (amp : AmpVal)
    (maxDepth wholeSetAutocatalytic autocatalyticSubnetworkCount : Nat) :
    List Nat :=
  if amp = AmpVal.bool true then
    List.replicate (1 + wholeSetAutocatalytic + autocatalyticSubnetworkCount)
      maxDepth
  else if amp = AmpVal.str squareLit then
    List.replicate
      ((1 + wholeSetAutocatalytic + autocatalyticSubnetworkCount) ^ 2) maxDepth
  else [maxDepth]

/-- One iteration of the trial loop of `find_assembly_list`: build a network,
process it, check the whole set for autocatalysis, and produce this trial's
contribution block. -/
def runTrial (finalProduct : PyStr) (p : ℚ) (s : Int) (amp : AmpVal)
    (g : RNG) : Except String (List Nat × RNG) :=
  match buildReactions finalProduct p s g with
  | .error e => .error e
  | .ok (df, g1) =>
    match processAutocatalyticSet finalProduct df with
    | .error e => .error e
    | .ok counts =>
      let wholeSetAutocatalytic :=
        if isAutocatalyticSubnetwork df true then 1 else 0
      .ok (contributionOf amp counts.2.2 wholeSetAutocatalytic counts.2.1, g1)

/-- Model of `AssemblyAnalysis.find_assembly_list` (contribution list only;
the side lists of per-trial counts feed the optional `return_all_counts`
output and are not needed by any property below). -/
def findAssemblyList (finalProduct : PyStr) (n : Nat) (p : ℚ) (s : Int)
    (amp : AmpVal) (g : RNG) : Except String (List Nat) :=
  match n with
  | 0 => .ok []
  | m + 1 =>
    match runTrial finalProduct p s amp g with
    | .error e => .error e
    | .ok (contribution, g1) =>
      match findAssemblyList finalProduct m p s amp g1 with
      | .error e => .error e
      | .ok rest => .ok (contribution ++ rest)

def unpackMsg : String := "ValueError: too many values to unpack"

/-- The assignment `subnetwork_count, max_depth =
self.process_autocatalytic_set(autocatalytic_set)` in `find_assembly_index`
unpacks the three-element tuple returned by `process_autocatalytic_set` into
two targets, which in Python always raises `ValueError`. -/
def unpackPair (_t : Nat × Nat × Nat) : Except String (Nat × Nat) :=
  .error unpackMsg

/-- The trial loop of `find_assembly_index`, accumulating assembly indices
(the code after the tuple unpacking is unreachable because the unpacking
always fails). -/
def findAssemblyIndexLoop (finalProduct : PyStr) (p : ℚ) (s : Int)
    (amp : AmpVal) : Nat → RNG → List Nat → Except String (List Nat)
  | 0, _, acc => .ok acc
  | n + 1, g, acc =>
    match buildReactions finalProduct p s g with
    | .error e => .error e
    | .ok (df, g1) =>
      match processAutocatalyticSet finalProduct df with
      | .error e => .error e
      | .ok counts =>
        match unpackPair counts with
        | .error e => .error e
        | .ok (subnetworkCount, maxDepth) =>
          let acc1 :=
            if amp.truthy then acc ++ List.replicate subnetworkCount maxDepth
            else acc ++ [maxDepth]
          findAssemblyIndexLoop finalProduct p s amp n g1 acc1

/-- Model of `AssemblyAnalysis.find_assembly_index`; `none` models the
`float('inf')` returned when no assembly index was accumulated. -/
def findAssemblyIndex (finalProduct : PyStr) (n : Nat) (p : ℚ) (s : Int)
    (amp : AmpVal) (g : RNG) : Except String (Option Nat) :=
  match findAssemblyIndexLoop finalProduct p s amp n g [] with
  | .error e => .error e
  | .ok indices => .ok indices.min?

example :
    findAssemblyList ['A'] 1 1 0 (AmpVal.bool false) ⟨[], []⟩ =
      .error keyErrorMsg := rfl

def cubicLit : String := "cubic"

example :
    findAssemblyList ['A', 'B'] 1 (3 / 2) 7 (AmpVal.str cubicLit) ⟨[], []⟩ =
      .ok [1] := rfl

example :
    extractSubnetworks ['A', 'B', 'C']
      [⟨0, 1, ['A'], ['B'], [], ['A', 'B']⟩,
       ⟨1, 0, ['A', 'B'], ['C'], [], ['A', 'B', 'C']⟩] =
      .ok [(['A', 'B'], [⟨0, 1, ['A'], ['B'], [], ['A', 'B']⟩])] := rfl

example :
    findAssemblyIndex ['A', 'B'] 1 0 0 (AmpVal.bool false) ⟨[], []⟩ =
      .error unpackMsg := rfl

theorem randint_isOk (lo hi : Nat) (g : RNG) (h : ¬ hi < lo) :
    ∃ i g1, randint lo hi g = .ok (i, g1) :=
  ⟨lo + (nextNat g).1 % (hi - lo + 1), (nextNat g).2,
    by simp [randint, h, nextNat]⟩

theorem randint_ok (lo hi : Nat) (g : RNG) (i : Nat) (g1 : RNG)
    (h : randint lo hi g = .ok (i, g1)) : lo ≤ hi ∧ lo ≤ i ∧ i ≤ hi := by
  unfold randint at h
  split at h
  · exact absurd h (by simp)
  · next hge =>
    have hlohi : lo ≤ hi := Nat.le_of_not_lt hge
    simp only [nextNat, Except.ok.injEq, Prod.mk.injEq] at h
    have hm : g.nats.headD 0 % (hi - lo + 1) < hi - lo + 1 :=
      Nat.mod_lt _ (by omega)
    omega

/-- Master structural lemma about `splitProductF`: with sufficient fuel, a
successful run appends a block of new reactions such that every new reaction
has multiset-equal product and constituent pair, an empty catalyst, either
the call's own product or a sorted product, and every composite constituent
produced by some new reaction; moreover a composite call records a reaction
for its own product. -/
theorem splitProductF_spec :
    ∀ (fuel : Nat) (product : PyStr) (layer : Nat)
      (st res : List Reaction × RNG),
      product.length < fuel →
      splitProductF fuel product layer st = .ok res →
      ∃ new : List Reaction,
        res.1 = st.1 ++ new ∧
        (∀ r ∈ new,
          sortChars (r.constituent1 ++ r.constituent2) = sortChars r.product) ∧
        (∀ r ∈ new, r.catalyst = []) ∧
        (∀ r ∈ new, r.product = product ∨ sortChars r.product = r.product) ∧
        (∀ r ∈ new, ∀ c : PyStr, (c = r.constituent1 ∨ c = r.constituent2) →
          1 < c.length → ∃ r' ∈ new, r'.product = c) ∧
        (1 < product.length → ∃ r' ∈ new, r'.product = product) := by
  intro fuel
  induction fuel with
  | zero => intro product layer st res h _; exact absurd h (by omega)
  | succ f ih =>
    intro product layer st res hlen hrun
    simp only [splitProductF] at hrun
    split at hrun
    · next h1 =>
      simp only [Except.ok.injEq] at hrun
      subst hrun
      exact ⟨[], by simp, by simp, by simp, by simp, by simp,
        fun hc => absurd hc (by omega)⟩
    · next h1 =>
      split at hrun
      · exact absurd hrun (by simp)
      · next splitIndex g hrand =>
        obtain ⟨hlohi, hi1, hi2⟩ := randint_ok _ _ _ _ _ hrand
        have hlen2 : 2 ≤ product.length := by omega
        split at hrun
        · exact absurd hrun (by simp)
        · next st1 heq1 =>
          split at hrun
          · exact absurd hrun (by simp)
          · next st2 heq2 =>
            simp only [Except.ok.injEq] at hrun
            subst hrun
            have hr1len :
                (sortChars (product.take splitIndex)).length = splitIndex := by
              rw [sortChars_length, List.length_take]
              omega
            have hr2len : (sortChars (product.drop splitIndex)).length =
                product.length - splitIndex := by
              rw [sortChars_length, List.length_drop]
            obtain ⟨new1, hst1, hmul1, hcat1, hsor1, hclo1, htop1⟩ :=
              ih _ _ _ _ (by omega) heq1
            obtain ⟨new2, hst2, hmul2, hcat2, hsor2, hclo2, htop2⟩ :=
              ih _ _ _ _ (by omega) heq2
            set r1 := sortChars (product.take splitIndex) with hr1
            set r2 := sortChars (product.drop splitIndex) with hr2
            refine ⟨new1 ++ new2 ++
              [{ rid := st2.1.length, layer := layer, constituent1 := r1,
                 constituent2 := r2, catalyst := [], product := product }],
              ?_, ?_, ?_, ?_, ?_, ?_⟩
            · simp only [addReaction, hst2, hst1]
              simp
            · intro r hr
              rcases List.mem_append.mp hr with hr | hr
              · rcases List.mem_append.mp hr with hr | hr
                · exact hmul1 r hr
                · exact hmul2 r hr
              · rcases List.mem_singleton.mp hr with rfl
                show sortChars (r1 ++ r2) = sortChars product
                rw [hr1, hr2, sortChars_append_sortChars,
                  List.take_append_drop]
            · intro r hr
              rcases List.mem_append.mp hr with hr | hr
              · rcases List.mem_append.mp hr with hr | hr
                · exact hcat1 r hr
                · exact hcat2 r hr
              · rcases List.mem_singleton.mp hr with rfl
                rfl
            · intro r hr
              rcases List.mem_append.mp hr with hr | hr
              · rcases List.mem_append.mp hr with hr | hr
                · rcases hsor1 r hr with hp | hs
                  · right
                    rw [hp, hr1, sortChars_idem]
                  · exact Or.inr hs
                · rcases hsor2 r hr with hp | hs
                  · right
                    rw [hp, hr2, sortChars_idem]
                  · exact Or.inr hs
              · rcases List.mem_singleton.mp hr with rfl
                exact Or.inl rfl
            · intro r hr c hc hclen
              rcases List.mem_append.mp hr with hr | hr
              · rcases List.mem_append.mp hr with hr | hr
                · obtain ⟨r', hr', hp'⟩ := hclo1 r hr c hc hclen
                  exact ⟨r', by simp [List.mem_append, hr'], hp'⟩
                · obtain ⟨r', hr', hp'⟩ := hclo2 r hr c hc hclen
                  exact ⟨r', by simp [List.mem_append, hr'], hp'⟩
              · rcases List.mem_singleton.mp hr with rfl
                rcases hc with rfl | rfl
                · obtain ⟨r', hr', hp'⟩ := htop1 (by simpa using hclen)
                  exact ⟨r', by simp [List.mem_append, hr'], hp'⟩
                · obtain ⟨r', hr', hp'⟩ := htop2 (by simpa using hclen)
                  exact ⟨r', by simp [List.mem_append, hr'], hp'⟩
            · intro _
              refine ⟨{ rid := st2.1.length, layer := layer,
                        constituent1 := r1, constituent2 := r2,
                        catalyst := [], product := product }, ?_, rfl⟩
              simp

/-- The master lemma transported to the `splitProduct` wrapper. -/
theorem splitProduct_spec (product : PyStr) (layer : Nat)
    (st res : List Reaction × RNG)
    (h : splitProduct product layer st = .ok res) :
    ∃ new : List Reaction,
      res.1 = st.1 ++ new ∧
      (∀ r ∈ new,
        sortChars (r.constituent1 ++ r.constituent2) = sortChars r.product) ∧
      (∀ r ∈ new, r.catalyst = []) ∧
      (∀ r ∈ new, r.product = product ∨ sortChars r.product = r.product) ∧
      (∀ r ∈ new, ∀ c : PyStr, (c = r.constituent1 ∨ c = r.constituent2) →
        1 < c.length → ∃ r' ∈ new, r'.product = c) ∧
      (1 < product.length → ∃ r' ∈ new, r'.product = product) :=
  splitProductF_spec (product.length + 1) product layer st res (by omega) h

/-- `split_product` succeeds on every nonempty product (the recursion only
ever calls itself on nonempty halves, and `randint` only fails on an empty
range). -/
theorem splitProductF_isOk :
    ∀ (fuel : Nat) (product : PyStr) (layer : Nat) (st : List Reaction × RNG),
      product.length < fuel → 1 ≤ product.length →
      ∃ res, splitProductF fuel product layer st = .ok res := by
  intro fuel
  induction fuel with
  | zero => intro product layer st h _; exact absurd h (by omega)
  | succ f ih =>
    intro product layer st hlt hge
    by_cases h1 : product.length = 1
    · exact ⟨st, by simp [splitProductF, h1]⟩
    · have h2 : 2 ≤ product.length := by omega
      have hne : ¬ product.length - 1 < 1 := by omega
      obtain ⟨i, g, hrand⟩ := randint_isOk 1 (product.length - 1) st.2 hne
      obtain ⟨_, hi1, hi2⟩ := randint_ok _ _ _ _ _ hrand
      have hr1len : (sortChars (product.take i)).length = i := by
        rw [sortChars_length, List.length_take]
        omega
      have hr2len : (sortChars (product.drop i)).length =
          product.length - i := by
        rw [sortChars_length, List.length_drop]
      obtain ⟨st1, hok1⟩ := ih (sortChars (product.take i)) (layer + 1)
        (st.1, g) (by omega) (by omega)
      obtain ⟨st2, hok2⟩ := ih (sortChars (product.drop i)) (layer + 1)
        st1 (by omega) (by omega)
      refine ⟨(addReaction layer (sortChars (product.take i))
        (sortChars (product.drop i)) product st2.1, st2.2), ?_⟩
      simp only [splitProductF, if_neg h1, hrand, hok1, hok2]

/-- Replacing the catalyst cell of a row, the only mutation
`assign_catalysts` performs. -/
def withCat (r : Reaction) (c : PyStr) : Reaction := { r with catalyst := c }

theorem assignStep0_shape (pool : List PyStr) (p : ℚ)
    (acc : List Reaction × List PyStr × RNG) (r : Reaction) :
    ∃ c used g, assignStep0 pool p acc r = (acc.1 ++ [withCat r c], used, g) := by
  simp only [assignStep0, withCat]
  split
  · split
    · exact ⟨[], _, _, rfl⟩
    · exact ⟨_, _, _, rfl⟩
  · exact ⟨[], _, _, rfl⟩

theorem assignStep1_shape (pool : List PyStr) (w : PyStr → ℚ) (p : ℚ)
    (acc : List Reaction × List PyStr × RNG) (r : Reaction) :
    ∃ c used g, assignStep1 pool w p acc r = (acc.1 ++ [withCat r c], used, g) := by
  simp only [assignStep1, withCat]
  split
  · split
    · exact ⟨[], _, _, rfl⟩
    · exact ⟨_, _, _, rfl⟩
  · exact ⟨[], _, _, rfl⟩

theorem assignStep2_shape (pool : List PyStr) (w : PyStr → ℚ) (p : ℚ)
    (acc : List Reaction × List PyStr × RNG) (r : Reaction) :
    ∃ c used g, assignStep2 pool w p acc r = (acc.1 ++ [withCat r c], used, g) := by
  simp only [assignStep2, withCat]
  split
  · split
    · exact ⟨[], _, _, rfl⟩
    · exact ⟨_, _, _, rfl⟩
  · exact ⟨[], _, _, rfl⟩

theorem foldl_assign_shape
    (step : (List Reaction × List PyStr × RNG) → Reaction →
      (List Reaction × List PyStr × RNG))
    (hstep : ∀ acc r, ∃ c used g, step acc r = (acc.1 ++ [withCat r c], used, g)) :
    ∀ (rs : List Reaction) (acc : List Reaction × List PyStr × RNG),
      ∃ cs : List PyStr, cs.length = rs.length ∧
        (rs.foldl step acc).1 = acc.1 ++ List.zipWith withCat rs cs := by
  intro rs
  induction rs with
  | nil => intro acc; exact ⟨[], rfl, by simp⟩
  | cons r rest ih =>
    intro acc
    obtain ⟨c, used, g, hc⟩ := hstep acc r
    obtain ⟨cs, hlen, hrest⟩ := ih (step acc r)
    refine ⟨c :: cs, by simp [hlen], ?_⟩
    rw [List.foldl_cons, hrest, hc, List.zipWith_cons_cons]
    simp

/-- The list produced by `assign_catalysts` is the input list with (only) the
catalyst cells rewritten, position by position. -/
theorem assignCatalysts_shape (fp : PyStr) (p : ℚ) (s : Int)
    (rs : List Reaction) (g : RNG) :
    ∃ cs : List PyStr, cs.length = rs.length ∧
      (assignCatalysts fp p s rs g).1 = List.zipWith withCat rs cs := by
  have hid : ∀ l : List Reaction,
      l = List.zipWith withCat l (l.map fun r => r.catalyst) := by
    intro l
    induction l with
    | nil => rfl
    | cons a as iha =>
      simp only [List.map_cons, List.zipWith_cons_cons]
      rw [← iha]
      rfl
  by_cases h0 : s = 0
  · subst h0
    obtain ⟨cs, hlen, hsh⟩ := foldl_assign_shape
      (assignStep0
        (dedupFirst ((fp.map fun c => [c]) ++ rs.map fun r => r.product)) p)
      (assignStep0_shape _ p) rs
      (([], [], g) : List Reaction × List PyStr × RNG)
    exact ⟨cs, hlen, by simpa using hsh⟩
  · by_cases h1 : s = 1
    · subst h1
      obtain ⟨cs, hlen, hsh⟩ := foldl_assign_shape
        (assignStep1
          (dedupFirst ((fp.map fun c => [c]) ++ rs.map fun r => r.product))
          (calculateWeightedProbabilities
            (dedupFirst ((fp.map fun c => [c]) ++ rs.map fun r => r.product)))
          p)
        (assignStep1_shape _ _ p) rs
        (([], [], g) : List Reaction × List PyStr × RNG)
      exact ⟨cs, hlen, by simpa using hsh⟩
    · by_cases h2 : s = 2
      · subst h2
        obtain ⟨cs, hlen, hsh⟩ := foldl_assign_shape
          (assignStep2
            (dedupFirst ((fp.map fun c => [c]) ++ rs.map fun r => r.product))
            (calculateWeightedProbabilities
              (dedupFirst ((fp.map fun c => [c]) ++ rs.map fun r => r.product)))
            p)
          (assignStep2_shape _ _ p) rs
          (([], [], g) : List Reaction × List PyStr × RNG)
        exact ⟨cs, hlen, by simpa using hsh⟩
      · refine ⟨rs.map fun r => r.catalyst, by simp, ?_⟩
        simp only [assignCatalysts]
        rw [if_neg h0, if_neg h1, if_neg h2]
        exact hid rs

theorem zipWith_withCat_mem :
    ∀ (rs : List Reaction) (cs : List PyStr), cs.length = rs.length →
      ∀ r' ∈ List.zipWith withCat rs cs, ∃ r ∈ rs,
        r'.product = r.product ∧ r'.constituent1 = r.constituent1 ∧
        r'.constituent2 = r.constituent2 ∧ r'.layer = r.layer := by
  intro rs
  induction rs with
  | nil => intro cs h r' hr'; simp at hr'
  | cons a as ih =>
    intro cs h r' hr'
    cases cs with
    | nil => simp at h
    | cons c cs' =>
      simp only [List.zipWith_cons_cons, List.mem_cons] at hr'
      rcases hr' with rfl | hr'
      · exact ⟨a, List.mem_cons_self a as, rfl, rfl, rfl, rfl⟩
      · obtain ⟨r, hr, hh⟩ := ih cs' (by simpa using h) r' hr'
        exact ⟨r, List.mem_cons_of_mem a hr, hh⟩

theorem zipWith_withCat_mem_rev :
    ∀ (rs : List Reaction) (cs : List PyStr), cs.length = rs.length →
      ∀ r ∈ rs, ∃ r' ∈ List.zipWith withCat rs cs, r'.product = r.product := by
  intro rs
  induction rs with
  | nil => intro cs h r hr; simp at hr
  | cons a as ih =>
    intro cs h r hr
    cases cs with
    | nil => simp at h
    | cons c cs' =>
      simp only [List.zipWith_cons_cons]
      rcases List.mem_cons.mp hr with rfl | hr
      · exact ⟨withCat r c, List.mem_cons_self _ _, rfl⟩
      · obtain ⟨r', hr', hp'⟩ := ih cs' (by simpa using h) r hr
        exact ⟨r', List.mem_cons_of_mem _ hr', hp'⟩

/-- Decomposition of a successful `build_reactions` run: the final table is
the split-generated table with only the catalyst cells rewritten. -/
theorem buildReactions_ok (fp : PyStr) (p : ℚ) (s : Int) (g : RNG)
    (df : List Reaction) (g1 : RNG)
    (h : buildReactions fp p s g = .ok (df, g1)) :
    ∃ (rs : List Reaction) (g2 : RNG) (cs : List PyStr),
      splitProduct fp 0 ([], g) = .ok (rs, g2) ∧ cs.length = rs.length ∧
      df = List.zipWith withCat rs cs := by
  unfold buildReactions at h
  split at h
  · exact absurd h (by simp)
  · next rs g2 heq =>
    obtain ⟨cs, hlen, hshape⟩ := assignCatalysts_shape fp p s rs g2
    simp only [Except.ok.injEq] at h
    have h1 : (assignCatalysts fp p s rs g2).1 = df := by rw [h]
    exact ⟨rs, g2, cs, heq, hlen, by rw [← h1, hshape]⟩

theorem assignCatalysts_nil (fp : PyStr) (p : ℚ) (s : Int) (g : RNG) :
    assignCatalysts fp p s [] g = ([], g) := by
  unfold assignCatalysts
  by_cases h0 : s = 0
  · simp [h0]
  · by_cases h1 : s = 1
    · simp [h0, h1]
    · by_cases h2 : s = 2 <;> simp [h0, h1, h2]

/-- `assign_catalysts` with a strategy id outside `{0, 1, 2}` falls through
the if/elif chain and changes nothing. -/
theorem assignCatalysts_unknown (fp : PyStr) (p : ℚ) (s : Int)
    (rs : List Reaction) (g : RNG) (h0 : s ≠ 0) (h1 : s ≠ 1) (h2 : s ≠ 2) :
    assignCatalysts fp p s rs g = (rs, g) := by
  unfold assignCatalysts
  rw [if_neg h0, if_neg h1, if_neg h2]

theorem subnetworkStep_foldl_subset (df : List Reaction) :
    ∀ (reactants : List PyStr) (acc : List Reaction × List PyStr),
      ∀ r ∈ (reactants.foldl (subnetworkStep df) acc).1, r ∈ acc.1 ∨ r ∈ df := by
  intro reactants
  induction reactants with
  | nil => intro acc r hr; exact Or.inl hr
  | cons a as ih =>
    intro acc r hr
    rcases ih (subnetworkStep df acc a) r hr with h | h
    · simp only [subnetworkStep] at h
      rcases List.mem_append.mp h with h | h
      · exact Or.inl h
      · exact Or.inr (List.mem_of_mem_filter h)
    · exact Or.inr h

theorem getSubnetworkLoop_subset (df : List Reaction) :
    ∀ (fuel : Nat) (acc : List Reaction) (reactants : List PyStr),
      (∀ r ∈ acc, r ∈ df) →
      ∀ r ∈ getSubnetworkLoop df fuel acc reactants, r ∈ df := by
  intro fuel
  induction fuel with
  | zero => intro acc reactants hacc r hr; exact hacc r hr
  | succ f ih =>
    intro acc reactants hacc r hr
    simp only [getSubnetworkLoop] at hr
    split at hr
    · exact hacc r hr
    · refine ih _ _ (fun r' hr' => ?_) r hr
      rcases subnetworkStep_foldl_subset df reactants (acc, []) r' hr' with h | h
      · exact hacc r' h
      · exact h

theorem getSubnetwork_subset (df : List Reaction) (product : PyStr)
    (sub : List Reaction) (h : getSubnetwork df product = .ok sub) :
    ∀ r ∈ sub, r ∈ df := by
  unfold getSubnetwork at h
  split at h
  · exact absurd h (by simp)
  · simp only [Except.ok.injEq] at h
    subst h
    intro r hr
    rw [mem_dedupFirst] at hr
    refine getSubnetworkLoop_subset df _ _ _ (fun r' hr' => ?_) r hr
    exact List.mem_of_mem_filter hr'

theorem getSubnetwork_isOk (df : List Reaction) (product : PyStr)
    (h : df ≠ []) : ∃ sub, getSubnetwork df product = .ok sub := by
  cases df with
  | nil => exact absurd rfl h
  | cons a as => exact ⟨_, rfl⟩

theorem insertSub_mem (dict : SubDict) (k : PyStr) (v : List Reaction)
    (kv : PyStr × List Reaction) (h : kv ∈ insertSub dict k v) :
    kv ∈ dict ∨ kv = (k, v) := by
  unfold insertSub at h
  split at h
  · rcases List.mem_map.mp h with ⟨kv0, hkv0, hmap⟩
    split at hmap
    · exact Or.inr hmap.symm
    · exact Or.inl (hmap ▸ hkv0)
  · rcases List.mem_append.mp h with h | h
    · exact Or.inl h
    · exact Or.inr (List.mem_singleton.mp h)

/-- Invariant of the `process_product` traversal: every entry of the dict has
a key different from the final product, and a value whose rows all come from
the full reaction table. -/
theorem processProducts_inv (df : List Reaction) (fp : PyStr) :
    ∀ (fuel : Nat) (worklist : List PyStr) (dict0 dict1 : SubDict),
      (∀ kv ∈ dict0, kv.1 ≠ fp ∧ ∀ r ∈ kv.2, r ∈ df) →
      processProducts df fp fuel worklist dict0 = .ok dict1 →
      ∀ kv ∈ dict1, kv.1 ≠ fp ∧ ∀ r ∈ kv.2, r ∈ df := by
  intro fuel
  induction fuel with
  | zero =>
    intro worklist dict0 dict1 h0 hrun
    simp only [processProducts, Except.ok.injEq] at hrun
    subst hrun
    exact h0
  | succ f ih =>
    intro worklist dict0 dict1 h0 hrun
    cases worklist with
    | nil =>
      simp only [processProducts, Except.ok.injEq] at hrun
      subst hrun
      exact h0
    | cons product rest =>
      simp only [processProducts] at hrun
      split at hrun
      · exact ih rest dict0 dict1 h0 hrun
      · split at hrun
        · exact absurd hrun (by simp)
        · next sub hsub =>
          split at hrun
          · exact ih rest dict0 dict1 h0 hrun
          · refine ih _ _ _ (fun kv hkv => ?_) hrun
            by_cases hpf : product = fp
            · rw [if_pos hpf] at hkv
              exact h0 kv hkv
            · rw [if_neg hpf] at hkv
              rcases insertSub_mem _ _ _ _ hkv with h | h
              · exact h0 kv h
              · subst h
                exact ⟨hpf, getSubnetwork_subset df product sub hsub⟩

theorem processProducts_isOk (df : List Reaction) (fp : PyStr) (hdf : df ≠ []) :
    ∀ (fuel : Nat) (worklist : List PyStr) (dict : SubDict),
      ∃ d, processProducts df fp fuel worklist dict = .ok d := by
  intro fuel
  induction fuel with
  | zero => intro worklist dict; exact ⟨dict, rfl⟩
  | succ f ih =>
    intro worklist dict
    cases worklist with
    | nil => exact ⟨dict, rfl⟩
    | cons product rest =>
      obtain ⟨sub, hsub⟩ := getSubnetwork_isOk df product hdf
      simp only [processProducts, hsub]
      split
      · exact ih rest dict
      · split
        · exact ih rest dict
        · exact ih _ _

theorem extractSubnetworks_inv (fp : PyStr) (df : List Reaction)
    (dict : SubDict) (h : extractSubnetworks fp df = .ok dict) :
    ∀ kv ∈ dict, kv.1 ≠ fp ∧ ∀ r ∈ kv.2, r ∈ df :=
  processProducts_inv df fp _ _ _ _ (by simp) h

theorem processAutocatalyticSet_isOk (fp : PyStr) (df : List Reaction)
    (hdf : df ≠ []) : ∃ t, processAutocatalyticSet fp df = .ok t := by
  obtain ⟨d, hd⟩ := processProducts_isOk df fp hdf
    (2 * df.length * df.length + 2 * df.length + 2) [fp] []
  refine ⟨(d.length,
    (d.filter fun kv => isAutocatalyticSubnetwork kv.2 true).length,
    (df.foldl (fun m row => if row.layer > m then row.layer else m) 0) + 1),
    ?_⟩
  simp only [processAutocatalyticSet, extractSubnetworks, hd]

/-- `build_reactions` succeeds on every nonempty final product, and the
resulting table is nonempty whenever the final product has at least two
characters. -/
theorem buildReactions_isOk (fp : PyStr) (p : ℚ) (s : Int) (g : RNG)
    (h : 1 ≤ fp.length) :
    ∃ df g1, buildReactions fp p s g = .ok (df, g1) ∧
      (2 ≤ fp.length → df ≠ []) := by
  obtain ⟨res, hres⟩ := splitProductF_isOk (fp.length + 1) fp 0 ([], g)
    (by omega) h
  obtain ⟨rs, g2⟩ := res
  have hsp : splitProduct fp 0 ([], g) = .ok (rs, g2) := hres
  obtain ⟨new, hnew, _, _, _, _, htop⟩ := splitProduct_spec _ _ _ _ hsp
  have hrs : rs = new := by simpa using hnew
  have hb : buildReactions fp p s g =
      .ok (assignCatalysts fp p s rs g2) := by
    unfold buildReactions
    rw [hsp]
  obtain ⟨cs, hlen, hshape⟩ := assignCatalysts_shape fp p s rs g2
  refine ⟨(assignCatalysts fp p s rs g2).1,
    (assignCatalysts fp p s rs g2).2, by rw [hb], ?_⟩
  intro h2 hempty
  obtain ⟨r', hr', _⟩ := htop (by omega)
  have hL : (assignCatalysts fp p s rs g2).1.length = rs.length := by
    rw [hshape, List.length_zipWith, hlen, Nat.min_self]
  rw [hempty] at hL
  simp only [List.length_nil] at hL
  rw [hrs] at hL
  have hne : new ≠ [] := List.ne_nil_of_mem hr'
  exact hne (List.eq_nil_of_length_eq_zero hL.symm)

theorem assignStep0_none (pool : List PyStr) (p : ℚ) (done : List Reaction)
    (used : List PyStr) (g : RNG) (r : Reaction)
    (h : ¬ (nextFloat g).1 ≤ p) :
    assignStep0 pool p (done, used, g) r =
      (done ++ [{ r with catalyst := [] }], used, (nextFloat g).2) := by
  simp only [assignStep0]
  rw [if_neg h]

theorem assignStep1_none (pool : List PyStr) (w : PyStr → ℚ) (p : ℚ)
    (done : List Reaction) (used : List PyStr) (g : RNG) (r : Reaction)
    (h : ¬ (nextFloat g).1 ≤ p) :
    assignStep1 pool w p (done, used, g) r =
      (done ++ [{ r with catalyst := [] }], used, (nextFloat g).2) := by
  simp only [assignStep1]
  rw [if_neg h]

theorem assignStep2_none (pool : List PyStr) (w : PyStr → ℚ) (p : ℚ)
    (done : List Reaction) (used : List PyStr) (g : RNG) (r : Reaction)
    (h : ¬ (nextFloat g).1 ≤ p) :
    assignStep2 pool w p (done, used, g) r =
      (done ++ [{ r with catalyst := [] }], used, (nextFloat g).2) := by
  simp only [assignStep2]
  rw [if_neg h]

theorem assignStep0_empty (pool : List PyStr) (p : ℚ) (done : List Reaction)
    (used : List PyStr) (g : RNG) (r : Reaction)
    (h : (nextFloat g).1 ≤ p) (he : possibleCatalystsNoReuse pool used r = []) :
    assignStep0 pool p (done, used, g) r =
      (done ++ [{ r with catalyst := [] }], used, (nextFloat g).2) := by
  simp only [assignStep0]
  rw [if_pos h, if_pos (by simp [he])]

theorem assignStep1_empty (pool : List PyStr) (w : PyStr → ℚ) (p : ℚ)
    (done : List Reaction) (used : List PyStr) (g : RNG) (r : Reaction)
    (h : (nextFloat g).1 ≤ p) (he : possibleCatalystsNoReuse pool used r = []) :
    assignStep1 pool w p (done, used, g) r =
      (done ++ [{ r with catalyst := [] }], used, (nextFloat g).2) := by
  simp only [assignStep1]
  rw [if_pos h, if_pos (by simp [he])]

theorem assignStep2_empty (pool : List PyStr) (w : PyStr → ℚ) (p : ℚ)
    (done : List Reaction) (used : List PyStr) (g : RNG) (r : Reaction)
    (h : (nextFloat g).1 ≤ p) (he : possibleCatalystsReuse pool r = []) :
    assignStep2 pool w p (done, used, g) r =
      (done ++ [{ r with catalyst := [] }], used, (nextFloat g).2) := by
  simp only [assignStep2]
  rw [if_pos h, if_pos (by simp [he])]

theorem assignStep0_assigned (pool : List PyStr) (p : ℚ) (done : List Reaction)
    (used : List PyStr) (g : RNG) (r : Reaction)
    (h : (nextFloat g).1 ≤ p)
    (hne : possibleCatalystsNoReuse pool used r ≠ []) :
    ∃ c ∈ possibleCatalystsNoReuse pool used r,
      assignStep0 pool p (done, used, g) r =
        (done ++ [{ r with catalyst := c }], used ++ [c],
          (randChoice (possibleCatalystsNoReuse pool used r) (nextFloat g).2).2) := by
  refine ⟨(randChoice (possibleCatalystsNoReuse pool used r) (nextFloat g).2).1,
    getD_mod_mem _ _ _ hne, ?_⟩
  simp only [assignStep0]
  rw [if_pos h, if_neg (by simpa using hne)]

theorem assignStep1_assigned (pool : List PyStr) (w : PyStr → ℚ) (p : ℚ)
    (done : List Reaction) (used : List PyStr) (g : RNG) (r : Reaction)
    (h : (nextFloat g).1 ≤ p)
    (hne : possibleCatalystsNoReuse pool used r ≠ []) :
    ∃ c ∈ possibleCatalystsNoReuse pool used r,
      assignStep1 pool w p (done, used, g) r =
        (done ++ [{ r with catalyst := c }], used ++ [c],
          (weightedChoice (possibleCatalystsNoReuse pool used r) w
            (nextFloat g).2).2) := by
  refine ⟨(weightedChoice (possibleCatalystsNoReuse pool used r) w
    (nextFloat g).2).1, pickByWeight_mem w _ _ hne, ?_⟩
  simp only [assignStep1]
  rw [if_pos h, if_neg (by simpa using hne)]

theorem assignStep2_assigned (pool : List PyStr) (w : PyStr → ℚ) (p : ℚ)
    (done : List Reaction) (used : List PyStr) (g : RNG) (r : Reaction)
    (h : (nextFloat g).1 ≤ p)
    (hne : possibleCatalystsReuse pool r ≠ []) :
    ∃ c ∈ possibleCatalystsReuse pool r,
      assignStep2 pool w p (done, used, g) r =
        (done ++ [{ r with catalyst := c }], used,
          (weightedChoice (possibleCatalystsReuse pool r) w
            (nextFloat g).2).2) := by
  refine ⟨(weightedChoice (possibleCatalystsReuse pool r) w
    (nextFloat g).2).1, pickByWeight_mem w _ _ hne, ?_⟩
  simp only [assignStep2]
  rw [if_pos h, if_neg (by simpa using hne)]

theorem contributionOf_one (amp : AmpVal) (d : Nat) :
    contributionOf amp d 0 0 = [d] := by
  unfold contributionOf
  split
  · rfl
  · split
    · rfl
    · rfl

theorem splitProduct_AB (g : RNG) :
    splitProduct ['A', 'B'] 0 ([], g) =
      .ok ([⟨0, 0, ['A'], ['B'], [], ['A', 'B']⟩],
        { g with nats := g.nats.tail }) := by
  simp [splitProduct, splitProductF, randint, nextNat, addReaction,
    sortChars, insertChar, Nat.mod_one]

theorem runTrial_AB (p : ℚ) (s : Int) (amp : AmpVal) (g : RNG)
    (h0 : s ≠ 0) (h1 : s ≠ 1) (h2 : s ≠ 2) :
    runTrial ['A', 'B'] p s amp g =
      .ok ([1], { g with nats := g.nats.tail }) := by
  have hb : buildReactions ['A', 'B'] p s g =
      .ok ([⟨0, 0, ['A'], ['B'], [], ['A', 'B']⟩],
        { g with nats := g.nats.tail }) := by
    simp only [buildReactions, splitProduct_AB,
      assignCatalysts_unknown _ _ _ _ _ h0 h1 h2]
  have hp : processAutocatalyticSet ['A', 'B']
      [⟨0, 0, ['A'], ['B'], [], ['A', 'B']⟩] = .ok (0, 0, 1) := rfl
  have hw : isAutocatalyticSubnetwork
      [⟨0, 0, ['A'], ['B'], [], ['A', 'B']⟩] true = false := rfl
  unfold runTrial
  simp only [hb, hp, hw, if_false, Bool.false_eq_true, contributionOf_one]

theorem findAssemblyList_AB (p : ℚ) (s : Int) (amp : AmpVal)
    (h0 : s ≠ 0) (h1 : s ≠ 1) (h2 : s ≠ 2) :
    ∀ (n : Nat) (g : RNG),
      findAssemblyList ['A', 'B'] n p s amp g = .ok (List.replicate n 1) := by
  intro n
  induction n with
  | zero => intro g; rfl
  | succ m ih =>
    intro g
    simp only [findAssemblyList, runTrial_AB p s amp g h0 h1 h2, ih]
    rfl

theorem findAssemblyList_empty (p : ℚ) (s : Int) (amp : AmpVal) (g : RNG)
    (n : Nat) (hn : 1 ≤ n) :
    findAssemblyList [] n p s amp g = .error emptyRangeMsg := by
  cases n with
  | zero => omega
  | succ m => rfl

/-- C1 (amended): in every generated ReactionSet, every reaction satisfies
the multiset identity `sort(constituent1 + constituent2) == sort(product)`,
and the exact identity `product == sort(constituent1 + constituent2)` holds
for every reaction whenever the final product is itself character-sorted; the
root reaction stores the literal final product, so for an unsorted final
product the exact identity fails at the root (see the counterexample). -/
theorem c1_sorted_concatenation (fp : PyStr) (p : ℚ) (s : Int) (g : RNG)
    (df : List Reaction) (g1 : RNG)
    (h : buildReactions fp p s g = .ok (df, g1)) :
    (∀ r ∈ df,
      sortChars (r.constituent1 ++ r.constituent2) = sortChars r.product) ∧
    (sortChars fp = fp →
      ∀ r ∈ df, r.product = sortChars (r.constituent1 ++ r.constituent2)) := by
  obtain ⟨rs, g2, cs, hsp, hlen, hdf⟩ := buildReactions_ok fp p s g df g1 h
  obtain ⟨new, hnew, hmul, _, hsor, _, _⟩ := splitProduct_spec _ _ _ _ hsp
  have hrs : rs = new := by simpa using hnew
  constructor
  · intro r hr
    rw [hdf] at hr
    obtain ⟨r0, hr0, hprod, hc1, hc2, _⟩ := zipWith_withCat_mem rs cs hlen r hr
    rw [hprod, hc1, hc2]
    exact hmul r0 (by rw [← hrs]; exact hr0)
  · intro hsorted r hr
    rw [hdf] at hr
    obtain ⟨r0, hr0, hprod, hc1, hc2, _⟩ := zipWith_withCat_mem rs cs hlen r hr
    rw [hprod, hc1, hc2]
    have hr0' : r0 ∈ new := by rw [← hrs]; exact hr0
    have hmul0 := hmul r0 hr0'
    rcases hsor r0 hr0' with hp | hs
    · rw [hp] at hmul0 ⊢
      rw [hmul0, hsorted]
    · rw [hs] at hmul0
      exact hmul0.symm

/-- C1 counterexample: for the unsorted final product "BA" the (root)
reaction stores product "BA" while the sorted concatenation of its
constituents is "AB", so `product == sort(constituent1 + constituent2)`
fails for a recorded reaction. -/
theorem c1_counterexample :
    buildReactions ['B', 'A'] 0 3 ⟨[], [0]⟩ =
      .ok ([⟨0, 0, ['B'], ['A'], [], ['B', 'A']⟩], ⟨[], []⟩) ∧
    (⟨0, 0, ['B'], ['A'], [], ['B', 'A']⟩ : Reaction).product ≠
      sortChars ((⟨0, 0, ['B'], ['A'], [], ['B', 'A']⟩ : Reaction).constituent1
        ++ (⟨0, 0, ['B'], ['A'], [], ['B', 'A']⟩ : Reaction).constituent2) :=
  ⟨rfl, by decide⟩

/-- C1 witness: the amended claim applied to the concrete sorted final
product "AB" with strategy 3 and the random source with one integer draw. -/
theorem c1_witness :
    sortChars ['A', 'B'] = ['A', 'B'] ∧
    (⟨0, 0, ['A'], ['B'], [], ['A', 'B']⟩ : Reaction).product =
      sortChars (['A'] ++ ['B']) := by
  refine ⟨by decide, ?_⟩
  exact (c1_sorted_concatenation ['A', 'B'] 0 3 ⟨[], [0]⟩
    [⟨0, 0, ['A'], ['B'], [], ['A', 'B']⟩] ⟨[], []⟩ rfl).2 (by decide)
    (⟨0, 0, ['A'], ['B'], [], ['A', 'B']⟩ : Reaction) (by decide)

/-- C2 (amended): the batch entry points perform no input validation.  With a
strategy id outside `{0,1,2}` (and any probability and any amplification
value, known or unknown) every trial runs to completion and produces a
result; an empty final product raises an error only inside the first trial's
build (`randint` on an empty range), not before any trial runs. -/
theorem c2_no_fail_fast (p : ℚ) (s : Int) (amp : AmpVal) (g : RNG) (n : Nat)
    (h0 : s ≠ 0) (h1 : s ≠ 1) (h2 : s ≠ 2) (hn : 1 ≤ n) :
    findAssemblyList ['A', 'B'] n p s amp g = .ok (List.replicate n 1) ∧
    findAssemblyList [] n p s amp g = .error emptyRangeMsg :=
  ⟨findAssemblyList_AB p s amp h0 h1 h2 n g,
   findAssemblyList_empty p s amp g n hn⟩

/-- C2 counterexample: a configuration that is invalid in every respect the
claim lists (probability 3/2 outside [0,1], strategy id 7, amplification
value "cubic" outside the recognized set) is accepted silently: the trial
runs and `find_assembly_list` returns a result instead of failing fast. -/
theorem c2_counterexample :
    ¬ ((3 : ℚ) / 2 ≤ 1) ∧ (7 : Int) ≠ 0 ∧ (7 : Int) ≠ 1 ∧ (7 : Int) ≠ 2 ∧
    AmpVal.str cubicLit ≠ AmpVal.bool true ∧
    AmpVal.str cubicLit ≠ AmpVal.str squareLit ∧
    findAssemblyList ['A', 'B'] 1 (3 / 2) 7 (AmpVal.str cubicLit) ⟨[], []⟩ =
      .ok [1] :=
  ⟨by norm_num, by decide, by decide, by decide, by decide, by decide, rfl⟩

/-- C2 witness: the amended claim applied at strategy 5, probability 0,
amplification "cubic", two trials. -/
theorem c2_witness :
    findAssemblyList ['A', 'B'] 2 0 5 (AmpVal.str cubicLit) ⟨[], []⟩ =
      .ok [1, 1] ∧
    findAssemblyList [] 2 0 5 (AmpVal.str cubicLit) ⟨[], []⟩ =
      .error emptyRangeMsg := by
  have h := c2_no_fail_fast 0 5 (AmpVal.str cubicLit) ⟨[], []⟩ 2
    (by decide) (by decide) (by decide) (by decide)
  exact ⟨h.1, h.2⟩

/-- C3: for the single-character final product "A" the reaction list is
empty, so `reactions_df` is a DataFrame with no columns, and the first
trial of `find_assembly_list` crashes with `KeyError` inside
`extract_subnetworks` (at `reactions_df[reactions_df['Product'] == product]`)
before `max_depth` is ever computed — the claimed contribution `[1]` is never
produced. -/
theorem c3_single_char_trial_crashes (p : ℚ) (s : Int) (amp : AmpVal)
    (g : RNG) :
    findAssemblyList ['A'] 1 p s amp g = .error keyErrorMsg := by
  have hsp : splitProduct ['A'] 0 ([], g) = .ok ([], g) := rfl
  have hb : buildReactions ['A'] p s g = .ok ([], g) := by
    simp only [buildReactions, hsp, assignCatalysts_nil]
  have hp : processAutocatalyticSet ['A'] ([] : List Reaction) =
      .error keyErrorMsg := rfl
  simp only [findAssemblyList, runTrial, hb, hp]

/-- C4 (amended): in every strategy, the per-reaction draw is compared with
the probability using less-or-equal (`random.random() <= probability`), not
strictly-less: if the probability is strictly below the draw the catalyst is
set to none, while if the draw is less than or equal to the probability an
assignment is attempted — a catalyst from the eligible candidate list when it
is nonempty, none otherwise.  In particular, for probability 0.0 a draw of
exactly 0.0 still attempts (and with nonempty candidates performs) an
assignment, so "no reaction is ever assigned a catalyst at probability 0"
fails for random sources that draw exactly 0.0 (see the counterexample). -/
theorem c4_draw_comparison (pool : List PyStr) (w : PyStr → ℚ) (p : ℚ)
    (done : List Reaction) (used : List PyStr) (g : RNG) (r : Reaction) :
    (p < clamp01 (g.floats.headD 0) →
      (assignStep0 pool p (done, used, g) r).1 =
        done ++ [{ r with catalyst := [] }] ∧
      (assignStep1 pool w p (done, used, g) r).1 =
        done ++ [{ r with catalyst := [] }] ∧
      (assignStep2 pool w p (done, used, g) r).1 =
        done ++ [{ r with catalyst := [] }]) ∧
    (clamp01 (g.floats.headD 0) ≤ p →
      (possibleCatalystsNoReuse pool used r = [] →
        (assignStep0 pool p (done, used, g) r).1 =
          done ++ [{ r with catalyst := [] }] ∧
        (assignStep1 pool w p (done, used, g) r).1 =
          done ++ [{ r with catalyst := [] }]) ∧
      (possibleCatalystsNoReuse pool used r ≠ [] →
        (∃ c ∈ possibleCatalystsNoReuse pool used r,
          (assignStep0 pool p (done, used, g) r).1 =
            done ++ [{ r with catalyst := c }]) ∧
        (∃ c ∈ possibleCatalystsNoReuse pool used r,
          (assignStep1 pool w p (done, used, g) r).1 =
            done ++ [{ r with catalyst := c }])) ∧
      (possibleCatalystsReuse pool r = [] →
        (assignStep2 pool w p (done, used, g) r).1 =
          done ++ [{ r with catalyst := [] }]) ∧
      (possibleCatalystsReuse pool r ≠ [] →
        ∃ c ∈ possibleCatalystsReuse pool r,
          (assignStep2 pool w p (done, used, g) r).1 =
            done ++ [{ r with catalyst := c }])) := by
  have hq : (nextFloat g).1 = clamp01 (g.floats.headD 0) := rfl
  constructor
  · intro hlt
    have hn : ¬ (nextFloat g).1 ≤ p := by
      rw [hq]
      exact not_le.mpr hlt
    exact ⟨by rw [assignStep0_none pool p done used g r hn],
      by rw [assignStep1_none pool w p done used g r hn],
      by rw [assignStep2_none pool w p done used g r hn]⟩
  · intro hle
    have hle' : (nextFloat g).1 ≤ p := by
      rw [hq]
      exact hle
    refine ⟨?_, ?_, ?_, ?_⟩
    · intro hemp
      exact ⟨by rw [assignStep0_empty pool p done used g r hle' hemp],
        by rw [assignStep1_empty pool w p done used g r hle' hemp]⟩
    · intro hne
      obtain ⟨c0, hc0, he0⟩ := assignStep0_assigned pool p done used g r hle' hne
      obtain ⟨c1, hc1, he1⟩ := assignStep1_assigned pool w p done used g r hle' hne
      exact ⟨⟨c0, hc0, by rw [he0]⟩, ⟨c1, hc1, by rw [he1]⟩⟩
    · intro hemp
      exact by rw [assignStep2_empty pool w p done used g r hle' hemp]
    · intro hne
      obtain ⟨c2, hc2, he2⟩ := assignStep2_assigned pool w p done used g r hle' hne
      exact ⟨c2, hc2, by rw [he2]⟩

/-- C4 counterexample: with probability 0.0 and a random source whose first
uniform draw is exactly 0.0, the single reaction of the "AB" network is
assigned the catalyst "AB" (strategy 0), refuting "for probability = 0.0 and
every random source no reaction is ever assigned a catalyst". -/
theorem c4_counterexample :
    buildReactions ['A', 'B'] 0 0 ⟨[0], [0, 0]⟩ =
      .ok ([⟨0, 0, ['A'], ['B'], ['A', 'B'], ['A', 'B']⟩], ⟨[], []⟩) ∧
    (⟨0, 0, ['A'], ['B'], ['A', 'B'], ['A', 'B']⟩ : Reaction).catalyst ≠ [] :=
  ⟨rfl, by decide⟩

/-- C4 witness: the amended claim applied at probability 0, a draw of 1/2
(strictly above the probability), pool `["C"]` and one concrete reaction:
the catalyst stays none. -/
theorem c4_witness :
    (0 : ℚ) < clamp01 ((⟨[1 / 2], []⟩ : RNG).floats.headD 0) ∧
    (assignStep0 [['C']] 0 (([], [], ⟨[1 / 2], []⟩))
      ⟨0, 0, ['A'], ['B'], [], ['A', 'B']⟩).1 =
      [⟨0, 0, ['A'], ['B'], [], ['A', 'B']⟩] := by
  have hlt : (0 : ℚ) < clamp01 ((⟨[1 / 2], []⟩ : RNG).floats.headD 0) := by
    norm_num [clamp01]
  refine ⟨hlt, ?_⟩
  have h := (c4_draw_comparison [['C']] (fun _ => 1) 0 [] [] ⟨[1 / 2], []⟩
    ⟨0, 0, ['A'], ['B'], [], ['A', 'B']⟩).1 hlt
  exact h.1

/-- C5 (amended): in every generated ReactionSet, every composite (length
greater than one) symbol that appears as a constituent of some reaction also
appears as the product of at least one reaction; it need not appear exactly
once, because two recursive branches producing identical constituent strings
each record their own reaction for that symbol (see the counterexample). -/
theorem c5_composite_constituent_produced (fp : PyStr) (p : ℚ) (s : Int)
    (g : RNG) (df : List Reaction) (g1 : RNG)
    (h : buildReactions fp p s g = .ok (df, g1)) :
    ∀ r ∈ df, ∀ c : PyStr, (c = r.constituent1 ∨ c = r.constituent2) →
      1 < c.length → ∃ r' ∈ df, r'.product = c := by
  obtain ⟨rs, g2, cs, hsp, hlen, hdf⟩ := buildReactions_ok fp p s g df g1 h
  obtain ⟨new, hnew, _, _, _, hclo, _⟩ := splitProduct_spec _ _ _ _ hsp
  have hrs : rs = new := by simpa using hnew
  intro r hr c hc hclen
  rw [hdf] at hr
  obtain ⟨r0, hr0, _, hc1, hc2, _⟩ := zipWith_withCat_mem rs cs hlen r hr
  have hr0' : r0 ∈ new := by
    rw [← hrs]
    exact hr0
  have hc' : c = r0.constituent1 ∨ c = r0.constituent2 := by
    rcases hc with rfl | rfl
    · exact Or.inl hc1
    · exact Or.inr hc2
  obtain ⟨r1, hr1, hp1⟩ := hclo r0 hr0' c hc' hclen
  obtain ⟨r', hr', hp'⟩ := zipWith_withCat_mem_rev rs cs hlen r1
    (by rw [hrs]; exact hr1)
  refine ⟨r', by rw [hdf]; exact hr', by rw [hp', hp1]⟩

/-- C5 counterexample: for the final product "ABAB" split in the middle, the
composite symbol "AB" appears as a constituent of the root reaction but as
the product of two distinct reactions, so "exactly once" fails. -/
theorem c5_counterexample :
    buildReactions ['A', 'B', 'A', 'B'] 0 3 ⟨[], [1, 0, 0]⟩ =
      .ok ([⟨0, 1, ['A'], ['B'], [], ['A', 'B']⟩,
            ⟨1, 1, ['A'], ['B'], [], ['A', 'B']⟩,
            ⟨2, 0, ['A', 'B'], ['A', 'B'], [], ['A', 'B', 'A', 'B']⟩],
           ⟨[], []⟩) ∧
    (⟨2, 0, ['A', 'B'], ['A', 'B'], [], ['A', 'B', 'A', 'B']⟩ :
      Reaction).constituent1 = ['A', 'B'] ∧
    (List.filter (fun row => decide (row.product = (['A', 'B'] : PyStr)))
      ([⟨0, 1, ['A'], ['B'], [], ['A', 'B']⟩,
        ⟨1, 1, ['A'], ['B'], [], ['A', 'B']⟩,
        ⟨2, 0, ['A', 'B'], ['A', 'B'], [], ['A', 'B', 'A', 'B']⟩] :
        List Reaction)).length = 2 :=
  ⟨rfl, rfl, by decide⟩

/-- C5 witness: the amended claim applied to the concrete build for "ABC",
whose root reaction has the composite constituent "AB". -/
theorem c5_witness :
    buildReactions ['A', 'B', 'C'] 0 3 ⟨[], [1, 0]⟩ =
      .ok ([⟨0, 1, ['A'], ['B'], [], ['A', 'B']⟩,
            ⟨1, 0, ['A', 'B'], ['C'], [], ['A', 'B', 'C']⟩], ⟨[], []⟩) ∧
    ∃ r' ∈ ([⟨0, 1, ['A'], ['B'], [], ['A', 'B']⟩,
             ⟨1, 0, ['A', 'B'], ['C'], [], ['A', 'B', 'C']⟩] : List Reaction),
      r'.product = (['A', 'B'] : PyStr) := by
  refine ⟨rfl, ?_⟩
  exact c5_composite_constituent_produced ['A', 'B', 'C'] 0 3 ⟨[], [1, 0]⟩
    [⟨0, 1, ['A'], ['B'], [], ['A', 'B']⟩,
     ⟨1, 0, ['A', 'B'], ['C'], [], ['A', 'B', 'C']⟩] ⟨[], []⟩ rfl
    (⟨1, 0, ['A', 'B'], ['C'], [], ['A', 'B', 'C']⟩ : Reaction)
    (by decide) ['A', 'B'] (Or.inl rfl) (by decide)

/-- C6: the per-trial contribution block of `find_assembly_list` with
multiplier `m = 1 + whole_set_autocatalytic + autocatalytic_subnetwork_count`
is `[max_depth]` for amplification none (`switch_aut_prob == False`),
`max_depth` repeated `m` times for linear (`== True`), and `max_depth`
repeated `m²` times for square (`== "square"`). -/
theorem c6_amplification_law (d w c : Nat) (hw : w ≤ 1) :
    contributionOf (AmpVal.bool false) d w c = [d] ∧
    contributionOf (AmpVal.bool true) d w c = List.replicate (1 + w + c) d ∧
    contributionOf (AmpVal.str squareLit) d w c =
      List.replicate ((1 + w + c) ^ 2) d := by
  refine ⟨?_, ?_, ?_⟩ <;> simp [contributionOf]

/-- C6 witness: the law applied at the spec's example (whole set
autocatalytic, two autocatalytic subnetworks, depth 5): one copy, four
copies, sixteen copies. -/
theorem c6_witness :
    contributionOf (AmpVal.bool false) 5 1 2 = [5] ∧
    contributionOf (AmpVal.bool true) 5 1 2 = [5, 5, 5, 5] ∧
    contributionOf (AmpVal.str squareLit) 5 1 2 = List.replicate 16 5 := by
  obtain ⟨ha, hb, hc⟩ := c6_amplification_law 5 1 2 (by decide)
  exact ⟨ha, by rw [hb]; rfl, by rw [hc]; rfl⟩

/-- C7: on a nonempty reaction table, `is_autocatalytic_subnetwork` with
`check_for_catalysts = True` returns false when the set of nonempty catalyst
values is empty, false when some catalyst is outside the union of all
products and constituents of the table, and true in all other cases (no
self-production of catalysts is required). -/
theorem c7_autocatalysis_rule (df : List Reaction) (hdf : df ≠ []) :
    (dfCatalysts df = [] → isAutocatalyticSubnetwork df true = false) ∧
    ((∃ c ∈ dfCatalysts df, c ∉ dfAllElements df) →
      isAutocatalyticSubnetwork df true = false) ∧
    (dfCatalysts df ≠ [] → (∀ c ∈ dfCatalysts df, c ∈ dfAllElements df) →
      isAutocatalyticSubnetwork df true = true) := by
  refine ⟨?_, ?_, ?_⟩
  · intro h
    simp [isAutocatalyticSubnetwork, h]
  · rintro ⟨c, hc, hnc⟩
    have hany : (dfCatalysts df).any
        (fun x => decide (x ∉ dfAllElements df)) = true := by
      rw [List.any_eq_true]
      exact ⟨c, hc, by simpa using hnc⟩
    unfold isAutocatalyticSubnetwork
    rw [hany]
    simp
  · intro hne hall
    have hee : (dfCatalysts df).isEmpty = false := by
      rcases hl : dfCatalysts df with _ | ⟨a, as⟩
      · exact absurd hl hne
      · rfl
    have hany : (dfCatalysts df).any
        (fun x => decide (x ∉ dfAllElements df)) = false := by
      rw [Bool.eq_false_iff]
      intro hco
      rw [List.any_eq_true] at hco
      obtain ⟨x, hx, hdx⟩ := hco
      exact (of_decide_eq_true hdx) (hall x hx)
    unfold isAutocatalyticSubnetwork
    rw [hany, hee]
    simp

/-- C7 witness: a one-row table whose catalyst "AB" is the row's own product
is autocatalytic. -/
theorem c7_witness :
    isAutocatalyticSubnetwork
      [⟨0, 0, ['A'], ['B'], ['A', 'B'], ['A', 'B']⟩] true = true := by
  exact (c7_autocatalysis_rule
    [⟨0, 0, ['A'], ['B'], ['A', 'B'], ['A', 'B']⟩] (by decide)).2.2
    (by decide) (by decide)

/-- C8: for every generated ReactionSet, the subnetwork dict returned by
`extract_subnetworks` never contains the literal final product as a key, and
every reaction row of every stored subnetwork is a row of the full reaction
table. -/
theorem c8_subnetwork_dict_sound (fp : PyStr) (p : ℚ) (s : Int) (g : RNG)
    (df : List Reaction) (g1 : RNG) (dict : SubDict)
    (hb : buildReactions fp p s g = .ok (df, g1))
    (he : extractSubnetworks fp df = .ok dict) :
    ∀ kv ∈ dict, kv.1 ≠ fp ∧ ∀ r ∈ kv.2, r ∈ df :=
  extractSubnetworks_inv fp df dict he

/-- C8 witness: the theorem applied to the concrete build for "ABC", whose
dict holds exactly the subnetwork of "AB"; the key differs from the final
product and its single row is a row of the full table. -/
theorem c8_witness :
    (['A', 'B'] : PyStr) ≠ ['A', 'B', 'C'] ∧
    (⟨0, 1, ['A'], ['B'], [], ['A', 'B']⟩ : Reaction) ∈
      ([⟨0, 1, ['A'], ['B'], [], ['A', 'B']⟩,
        ⟨1, 0, ['A', 'B'], ['C'], [], ['A', 'B', 'C']⟩] : List Reaction) := by
  have h := c8_subnetwork_dict_sound ['A', 'B', 'C'] 0 3 ⟨[], [1, 0]⟩
    [⟨0, 1, ['A'], ['B'], [], ['A', 'B']⟩,
     ⟨1, 0, ['A', 'B'], ['C'], [], ['A', 'B', 'C']⟩] ⟨[], []⟩
    [(['A', 'B'], [⟨0, 1, ['A'], ['B'], [], ['A', 'B']⟩])] rfl rfl
    (['A', 'B'], [⟨0, 1, ['A'], ['B'], [], ['A', 'B']⟩]) (by decide)
  exact ⟨h.1, h.2 (⟨0, 1, ['A'], ['B'], [], ['A', 'B']⟩ : Reaction) (by decide)⟩

/-- C9: for every final product of length at least two and every positive
trial count, `find_assembly_index` fails on its first trial with the
tuple-unpacking `ValueError` (it destructures the three-element result of
`process_autocatalytic_set` into two variables) and never returns a value. -/
theorem c9_find_assembly_index_unpack (fp : PyStr) (n : Nat) (p : ℚ)
    (s : Int) (amp : AmpVal) (g : RNG) (hlen : 2 ≤ fp.length)
    (hn : 1 ≤ n) :
    findAssemblyIndex fp n p s amp g = .error unpackMsg := by
  cases n with
  | zero => omega
  | succ m =>
    obtain ⟨df, g1, hb, hne⟩ := buildReactions_isOk fp p s g (by omega)
    obtain ⟨t, ht⟩ := processAutocatalyticSet_isOk fp df (hne hlen)
    have hloop : findAssemblyIndexLoop fp p s amp (m + 1) g [] =
        .error unpackMsg := by
      simp only [findAssemblyIndexLoop, hb, ht, unpackPair]
    simp only [findAssemblyIndex, hloop]

/-- C9 witness: the theorem applied at final product "AB" with one trial. -/
theorem c9_witness :
    2 ≤ (['A', 'B'] : PyStr).length ∧
    findAssemblyIndex ['A', 'B'] 1 0 0 (AmpVal.bool false) ⟨[], []⟩ =
      .error unpackMsg :=
  ⟨by decide, c9_find_assembly_index_unpack ['A', 'B'] 1 0 0
    (AmpVal.bool false) ⟨[], []⟩ (by decide) (by decide)⟩

/-- C10: for every strategy id outside `{0, 1, 2}`, `assign_catalysts`
returns without error and without modifying the table, and a network built
with such a strategy has every catalyst equal to the empty string it was
given at creation. -/
theorem c10_unknown_strategy_noop (fp : PyStr) (p : ℚ) (s : Int)
    (rs : List Reaction) (g : RNG) (df : List Reaction) (g1 : RNG)
    (h0 : s ≠ 0) (h1 : s ≠ 1) (h2 : s ≠ 2) :
    assignCatalysts fp p s rs g = (rs, g) ∧
    (buildReactions fp p s g = .ok (df, g1) → ∀ r ∈ df, r.catalyst = []) := by
  refine ⟨assignCatalysts_unknown fp p s rs g h0 h1 h2, ?_⟩
  intro h r hr
  unfold buildReactions at h
  split at h
  · exact absurd h (by simp)
  · next rs0 g2 heq =>
    rw [assignCatalysts_unknown fp p s rs0 g2 h0 h1 h2] at h
    simp only [Except.ok.injEq, Prod.mk.injEq] at h
    obtain ⟨hdf, _⟩ := h
    obtain ⟨new, hnew, _, hcat, _, _, _⟩ := splitProduct_spec _ _ _ _ heq
    have hrs0 : rs0 = new := by simpa using hnew
    refine hcat r ?_
    rw [← hrs0, hdf]
    exact hr

/-- C10 witness: the theorem applied at strategy 3 with the concrete "AB"
build. -/
theorem c10_witness :
    assignCatalysts ['A', 'B'] 0 3
      [⟨0, 0, ['A'], ['B'], [], ['A', 'B']⟩] ⟨[], []⟩ =
      ([⟨0, 0, ['A'], ['B'], [], ['A', 'B']⟩], ⟨[], []⟩) ∧
    (⟨0, 0, ['A'], ['B'], [], ['A', 'B']⟩ : Reaction).catalyst = [] := by
  have h := c10_unknown_strategy_noop ['A', 'B'] 0 3
    [⟨0, 0, ['A'], ['B'], [], ['A', 'B']⟩] ⟨[], [0]⟩
    [⟨0, 0, ['A'], ['B'], [], ['A', 'B']⟩] ⟨[], []⟩
    (by decide) (by decide) (by decide)
  have h2 := c10_unknown_strategy_noop ['A', 'B'] 0 3
    [⟨0, 0, ['A'], ['B'], [], ['A', 'B']⟩] ⟨[], []⟩
    [⟨0, 0, ['A'], ['B'], [], ['A', 'B']⟩] ⟨[], []⟩
    (by decide) (by decide) (by decide)
  exact ⟨h2.1, h.2 rfl (⟨0, 0, ['A'], ['B'], [], ['A', 'B']⟩ : Reaction)
    (by decide)⟩
